import Mathlib

/-!
Verification of the EQcorrscan normalised cross-correlation kernels
(`src/eqcorrscan/lib/multi_corr.c`) against their specification.

The C source is shallowly embedded as follows.

* Single-precision / double-precision arithmetic is idealised as exact
  arithmetic: the purely rational computations (running mean and variance,
  template sums, the FFT cross-correlation values) are embedded over `ℚ`,
  and the final normalisation, which divides by `sqrt(var)`, lives in `ℝ`.
* The FFTW library is external to the repository.  Its documented exact
  semantics for the composition used by the code (forward real-to-complex
  transforms of the zero-padded reversed templates and the zero-padded
  image, a row-pointwise complex product, and an unnormalised inverse
  transform) is that `ccc` holds `fft_len * n_templates` times the circular
  cross-correlation of each extended template row with the extended image;
  `cccModel` embeds exactly that value, and the code's subsequent division
  by `fft_len * n_templates` is kept verbatim.
* Buffers are embedded as total functions `ℕ → _`; a C loop writing a
  buffer becomes a `List.foldl` of single-cell writes in program order.
* The post-processing stage of `multi_normxcorr_fftw` manipulates whatever
  single-precision values the kernel phase produced.  Finite floats are
  rationals, so that stage is embedded over the type `FVal` of finite
  rationals together with the IEEE specials NaN, `+inf`, `-inf`, with the
  kernel-phase contents of the `ncc` buffer taken as an arbitrary input.
  The OpenMP channel loop is embedded by its sequential (one worker)
  execution, processing channels in increasing order.
-/

/-- Entry `p` of template `k` in the flat row-major `templates` buffer
(`templates[k * template_len + p]`); out-of-range reads give `0`. -/
def tAt (t : List ℚ) (L k p : ℕ) : ℚ := t.getD (k * L + p) 0

/-- `norm_sums[k] = Σ_i templates[k * L + i]`, accumulated by the zero-padding
loop of `normxcorr_fftw_main` (multi_corr.c lines 277-283). -/
def norm_sums (t : List ℚ) (L k : ℕ) : ℚ := ∑ i in Finset.range L, tAt t L k i

/-- Row `k` of the zero-padded, time-reversed template buffer:
`template_ext[(k * fft_len) + i] = templates[((k + 1) * L) - (i + 1)]` for
`i < L`, zero beyond (multi_corr.c line 280; the buffer is pre-zeroed by the
caller). -/
def tExt (t : List ℚ) (L k i : ℕ) : ℚ := if i < L then tAt t L k (L - 1 - i) else 0

/-- The zero-padded image buffer: `image_ext[i] = image[i]` for `i < image_len`,
zero beyond (multi_corr.c lines 284-287). -/
def xExt (x : List ℚ) (Li i : ℕ) : ℚ := if i < Li then x.getD i 0 else 0

/-- Index `(n - m) mod N` used by circular convolution. -/
def circIdx (N n m : ℕ) : ℕ := (((n : ℤ) - (m : ℤ)) % (N : ℤ)).toNat

/-- Contents of `ccc[(k * fft_len) + n]` after the inverse transform
(multi_corr.c lines 289-301).  Models the external FFTW calls: forward
transforms of `template_ext` and `image_ext`, row-pointwise complex product,
unnormalised inverse transform; in exact arithmetic the result is
`fft_len * n_templates` times the circular cross-correlation of template row
`k` with the extended image. -/
def cccModel (t : List ℚ) (L T : ℕ) (x : List ℚ) (Li N : ℕ) (k n : ℕ) : ℚ :=
  ((N : ℚ) * (T : ℚ)) * ∑ m in Finset.range N, tExt t L k m * xExt x Li (circIdx N n m)

/-- Running window mean maintained by `normxcorr_fftw_main`: initialised as
`(Σ_{i<L} image[i]) / L` (lines 305-308) and updated by
`mean += (new_samp - old_samp) / L` (lines 330-333).  `normxcorr_time`
maintains exactly the same quantity (lines 360-363 and 373). -/
def meanAt (x : List ℚ) (L : ℕ) : ℕ → ℚ
  | 0 => (∑ i in Finset.range L, x.getD i 0) / (L : ℚ)
  | j + 1 => meanAt x L j + (x.getD (j + L) 0 - x.getD j 0) / (L : ℚ)

/-- Running window variance maintained by `normxcorr_fftw_main`: initialised as
`Σ_{i<L} (image[i] - mean)² / L` (lines 311-313) and updated by
`var += (new - old) * (new - mean_new + old - mean_old) / L` (line 334). -/
def varAt (x : List ℚ) (L : ℕ) : ℕ → ℚ
  | 0 => ∑ i in Finset.range L, (x.getD i 0 - meanAt x L 0) ^ 2 / (L : ℚ)
  | j + 1 => varAt x L j +
      (x.getD (j + L) 0 - x.getD j 0) *
        (x.getD (j + L) 0 - meanAt x L (j + 1) + (x.getD j 0 - meanAt x L j)) / (L : ℚ)

/-- The variance floor `acceptedDiff = 0.0000001` (line 273). -/
def acceptedDiff : ℚ := 1 / 10000000

/-- Number of output columns, `steps = image_len - template_len + 1`. -/
def stepsOf (L Li : ℕ) : ℕ := Li + 1 - L

/-- Direct mean of the image over the window `[j, j + L)`. -/
def winMean (x : List ℚ) (L j : ℕ) : ℚ := (∑ i in Finset.range L, x.getD (j + i) 0) / (L : ℚ)

/-- Direct biased (divisor `L`) variance of the image over `[j, j + L)`. -/
def winVar (x : List ℚ) (L j : ℕ) : ℚ :=
  (∑ i in Finset.range L, (x.getD (j + i) 0 - winMean x L j) ^ 2) / (L : ℚ)

/-- The centred cross-correlation numerator `Σ_p t[k][p] * (x[j+p] - μ_j)`. -/
def winNumer (t : List ℚ) (L : ℕ) (x : List ℚ) (k j : ℕ) : ℚ :=
  ∑ p in Finset.range L, tAt t L k p * (x.getD (j + p) 0 - winMean x L j)

/-- The normalised value `c` computed at lines 322 and 338:
`((ccc[(k*fft_len) + (L-1) + j] / (fft_len * n_templates)) - norm_sums[k] * mean) / stdev`
with `stdev = sqrt(var)`. -/
noncomputable def cValR (t : List ℚ) (L T : ℕ) (x : List ℚ) (Li N k j : ℕ) : ℝ :=
  ((cccModel t L T x Li N k (L - 1 + j) / ((N : ℚ) * (T : ℚ)) -
      norm_sums t L k * meanAt x L j : ℚ) : ℝ) /
    Real.sqrt ((varAt x L j : ℚ) : ℝ)

/-- The value written to output column `j` of template `k`: column `0` emits
`0` when `var < acceptedDiff` and the normalised value otherwise (lines
317-325); columns `j ≥ 1` emit the normalised value when
`var > acceptedDiff` and `0` otherwise (lines 336-344). -/
noncomputable def nccMainVal (t : List ℚ) (L T : ℕ) (x : List ℚ) (Li N k j : ℕ) : ℝ :=
  if j = 0 then
    if varAt x L 0 < acceptedDiff then 0 else cValR t L T x Li N k 0
  else
    if acceptedDiff < varAt x L j then cValR t L T x Li N k j else 0

/-- Single-cell buffer write. -/
def wrBuf (f : ℕ → ℝ) (i : ℕ) (v : ℝ) : ℕ → ℝ := fun n => if n = i then v else f n

/-- The column-0 loop (lines 317-325): writes `ncc[k * steps]` for each
template `k < n_templates`, in increasing order. -/
noncomputable def col0Pass (t : List ℚ) (L T : ℕ) (x : List ℚ) (Li N : ℕ) (f : ℕ → ℝ) :
    ℕ → ℝ :=
  (List.range T).foldl
    (fun g k => wrBuf g (k * stepsOf L Li) (nccMainVal t L T x Li N k 0)) f

/-- One iteration of the main normalisation loop (lines 336-344) at column
`j`: writes `ncc[k * steps + j]` for each template `k < n_templates`. -/
noncomputable def colPass (t : List ℚ) (L T : ℕ) (x : List ℚ) (Li N : ℕ) (f : ℕ → ℝ)
    (j : ℕ) : ℕ → ℝ :=
  (List.range T).foldl
    (fun g k => wrBuf g (k * stepsOf L Li + j) (nccMainVal t L T x Li N k j)) f

/-- `normxcorr_fftw_main` (multi_corr.c lines 243-350), embedded as a function
from the initial contents of the `ncc` buffer to the returned status
(the function always returns `0`, line 349) together with the final buffer:
the column-0 loop runs first, then the loop over columns `1 ≤ j < steps`. -/
noncomputable def normxcorr_fftw_main (t : List ℚ) (L T : ℕ) (x : List ℚ) (Li : ℕ)
    (ncc : ℕ → ℝ) (N : ℕ) : ℤ × (ℕ → ℝ) :=
  (0, (List.range' 1 (stepsOf L Li - 1)).foldl
        (fun g j => colPass t L T x Li N g j)
        (col0Pass t L T x Li N ncc))

/-- Shifting the window by one: the sum over `[j+1, j+1+L)` is the sum over
`[j, j+L)` plus the incoming sample minus the outgoing one. -/
theorem winSum_shift (x : List ℚ) (L j : ℕ) :
    (∑ i in Finset.range L, x.getD (j + 1 + i) 0) =
      (∑ i in Finset.range L, x.getD (j + i) 0) + x.getD (j + L) 0 - x.getD j 0 := by
  have h1 : (∑ i in Finset.range L, x.getD (j + 1 + i) 0) =
      ∑ i in Finset.range L, x.getD (j + (i + 1)) 0 := by
    refine Finset.sum_congr rfl fun i _ => by rw [show j + 1 + i = j + (i + 1) by omega]
  have h2 : (∑ i in Finset.range (L + 1), x.getD (j + i) 0) =
      (∑ i in Finset.range L, x.getD (j + (i + 1)) 0) + x.getD (j + 0) 0 :=
    Finset.sum_range_succ' _ _
  have h3 : (∑ i in Finset.range (L + 1), x.getD (j + i) 0) =
      (∑ i in Finset.range L, x.getD (j + i) 0) + x.getD (j + L) 0 :=
    Finset.sum_range_succ _ _
  rw [h1]
  have := h2.symm.trans h3
  simp only [Nat.add_zero] at this
  linarith

/-- Same shift identity for the sum of squares. -/
theorem winSumSq_shift (x : List ℚ) (L j : ℕ) :
    (∑ i in Finset.range L, x.getD (j + 1 + i) 0 ^ 2) =
      (∑ i in Finset.range L, x.getD (j + i) 0 ^ 2) + x.getD (j + L) 0 ^ 2 -
        x.getD j 0 ^ 2 := by
  have h1 : (∑ i in Finset.range L, x.getD (j + 1 + i) 0 ^ 2) =
      ∑ i in Finset.range L, x.getD (j + (i + 1)) 0 ^ 2 := by
    refine Finset.sum_congr rfl fun i _ => by rw [show j + 1 + i = j + (i + 1) by omega]
  have h2 : (∑ i in Finset.range (L + 1), x.getD (j + i) 0 ^ 2) =
      (∑ i in Finset.range L, x.getD (j + (i + 1)) 0 ^ 2) + x.getD (j + 0) 0 ^ 2 :=
    Finset.sum_range_succ' _ _
  have h3 : (∑ i in Finset.range (L + 1), x.getD (j + i) 0 ^ 2) =
      (∑ i in Finset.range L, x.getD (j + i) 0 ^ 2) + x.getD (j + L) 0 ^ 2 :=
    Finset.sum_range_succ _ _
  rw [h1]
  have := h2.symm.trans h3
  simp only [Nat.add_zero] at this
  linarith

/-- The running mean of `normxcorr_fftw_main` equals the direct window mean. -/
theorem meanAt_eq (x : List ℚ) (L : ℕ) : ∀ j, meanAt x L j = winMean x L j := by
  intro j
  induction j with
  | zero =>
      simp [meanAt, winMean]
  | succ j ih =>
      rw [meanAt, ih, winMean, winMean, winSum_shift]
      ring

/-- The direct window mean after a shift, in update form. -/
theorem winMean_shift (x : List ℚ) (L j : ℕ) :
    winMean x L (j + 1) = winMean x L j + (x.getD (j + L) 0 - x.getD j 0) / (L : ℚ) := by
  have := meanAt_eq x L (j + 1)
  rw [meanAt, meanAt_eq x L j] at this
  linarith

/-- Second-moment form of the window variance (needs `L ≥ 1`). -/
theorem winVar_moments (x : List ℚ) (L j : ℕ) (hL : 1 ≤ L) :
    winVar x L j = (∑ i in Finset.range L, x.getD (j + i) 0 ^ 2) / (L : ℚ) -
      winMean x L j ^ 2 := by
  have hL0 : (L : ℚ) ≠ 0 := by exact_mod_cast Nat.one_le_iff_ne_zero.mp hL
  have hexp : (∑ i in Finset.range L, (x.getD (j + i) 0 - winMean x L j) ^ 2) =
      (∑ i in Finset.range L, x.getD (j + i) 0 ^ 2) -
        2 * winMean x L j * (∑ i in Finset.range L, x.getD (j + i) 0) +
        (L : ℚ) * winMean x L j ^ 2 := by
    have : ∀ i ∈ Finset.range L,
        (x.getD (j + i) 0 - winMean x L j) ^ 2 =
          x.getD (j + i) 0 ^ 2 - 2 * winMean x L j * x.getD (j + i) 0 +
            winMean x L j ^ 2 := fun i _ => by ring
    rw [Finset.sum_congr rfl this, Finset.sum_add_distrib, Finset.sum_sub_distrib,
      ← Finset.mul_sum, Finset.sum_const, Finset.card_range, nsmul_eq_mul]
  have hsum : (∑ i in Finset.range L, x.getD (j + i) 0) = (L : ℚ) * winMean x L j := by
    rw [winMean]
    field_simp
  rw [winVar, hexp, hsum]
  field_simp
  ring

/-- The running variance of `normxcorr_fftw_main` equals the direct biased
window variance (needs `L ≥ 1`). -/
theorem varAt_eq (x : List ℚ) (L : ℕ) (hL : 1 ≤ L) :
    ∀ j, varAt x L j = winVar x L j := by
  have hL0 : (L : ℚ) ≠ 0 := by exact_mod_cast Nat.one_le_iff_ne_zero.mp hL
  intro j
  induction j with
  | zero =>
      rw [varAt, winVar, meanAt_eq]
      rw [Finset.sum_div]
      refine Finset.sum_congr rfl fun i _ => by rw [show (0 : ℕ) + i = i by omega]
  | succ j ih =>
      rw [varAt, ih, meanAt_eq, meanAt_eq,
        winVar_moments x L j hL, winVar_moments x L (j + 1) hL, winSumSq_shift,
        winMean_shift]
      field_simp
      ring

/-- For a valid output column the circular cross-correlation value stored in
`ccc` reduces to the plain cross-correlation `Σ_p t[k][p] * x[j+p]`:
no wrap-around occurs when `fft_len ≥ template_len + image_len - 1`. -/
theorem cccModel_valid (t : List ℚ) (L T : ℕ) (x : List ℚ) (Li N k j : ℕ)
    (hL : 1 ≤ L) (hLi : L ≤ Li) (hN : L + Li ≤ N + 1) (hj : j + L ≤ Li) :
    cccModel t L T x Li N k (L - 1 + j) =
      ((N : ℚ) * (T : ℚ)) * ∑ p in Finset.range L, tAt t L k p * x.getD (j + p) 0 := by
  rw [cccModel]
  congr 1
  have hLN : L ≤ N := by omega
  have hstep : ∀ m ∈ Finset.range N, m ∉ Finset.range L →
      tExt t L k m * xExt x Li (circIdx N (L - 1 + j) m) = 0 := by
    intro m _ hm
    have : ¬ m < L := by simpa [Finset.mem_range] using hm
    simp [tExt, this]
  rw [← Finset.sum_subset (Finset.range_subset.mpr hLN) hstep]
  have hterm : ∀ m ∈ Finset.range L,
      tExt t L k m * xExt x Li (circIdx N (L - 1 + j) m) =
        tAt t L k (L - 1 - m) * x.getD (j + (L - 1 - m)) 0 := by
    intro m hm
    have hmL : m < L := Finset.mem_range.mp hm
    have hidx : circIdx N (L - 1 + j) m = L - 1 + j - m := by
      unfold circIdx
      have hcast : ((L - 1 + j : ℕ) : ℤ) - (m : ℤ) = ((L - 1 + j - m : ℕ) : ℤ) := by
        have : m ≤ L - 1 + j := by omega
        omega
      rw [hcast, Int.emod_eq_of_lt (by positivity) (by exact_mod_cast (by omega : L - 1 + j - m < N))]
      simp
    have hlt : L - 1 + j - m < Li := by omega
    have harg : L - 1 + j - m = j + (L - 1 - m) := by omega
    rw [hidx, xExt, if_pos hlt, tExt, if_pos hmL, harg]
  rw [Finset.sum_congr rfl hterm]
  exact Finset.sum_range_reflect (fun p => tAt t L k p * x.getD (j + p) 0) L

/-- The centred numerator identity: subtracting `norm_sums[k] * μ_j` from the
raw cross-correlation recentres the image window. -/
theorem winNumer_eq (t : List ℚ) (L : ℕ) (x : List ℚ) (k j : ℕ) :
    (∑ p in Finset.range L, tAt t L k p * x.getD (j + p) 0) -
      norm_sums t L k * winMean x L j = winNumer t L x k j := by
  rw [winNumer, norm_sums]
  have : ∀ p ∈ Finset.range L,
      tAt t L k p * (x.getD (j + p) 0 - winMean x L j) =
        tAt t L k p * x.getD (j + p) 0 - tAt t L k p * winMean x L j :=
    fun p _ => by ring
  rw [Finset.sum_congr rfl this, Finset.sum_sub_distrib, ← Finset.sum_mul]

/-- Write indices `t * s + a` with `a < s` determine the template row and
column uniquely. -/
theorem rowcol_inj {s t k a j : ℕ} (ha : a < s) (hj : j < s)
    (h : t * s + a = k * s + j) : t = k ∧ a = j := by
  have hs : 0 < s := by omega
  have hdiv : ∀ u b : ℕ, b < s → (u * s + b) / s = u := by
    intro u b hb
    rw [mul_comm, Nat.mul_add_div hs, Nat.div_eq_of_lt hb, Nat.add_zero]
  have hmod : ∀ u b : ℕ, b < s → (u * s + b) % s = b := by
    intro u b hb
    rw [mul_comm, Nat.mul_add_mod, Nat.mod_eq_of_lt hb]
  constructor
  · rw [← hdiv t a ha, h, hdiv k j hj]
  · rw [← hmod t a ha, h, hmod k j hj]

/-- Applying a row of writes at indices `t * s + off` (for `t` ranging over
`range n`) to a buffer: the cell `(k, j)` holds the written value exactly when
`k < n` and `j = off`. -/
theorem foldl_wr_apply (s off : ℕ) (hoff : off < s) (v : ℕ → ℝ) :
    ∀ (n : ℕ) (f : ℕ → ℝ) (k j : ℕ), j < s →
      ((List.range n).foldl (fun g u => wrBuf g (u * s + off) (v u)) f) (k * s + j) =
        if k < n ∧ j = off then v k else f (k * s + j) := by
  intro n
  induction n with
  | zero => intro f k j hj; simp
  | succ n ih =>
      intro f k j hj
      rw [List.range_succ, List.foldl_append]
      simp only [List.foldl_cons, List.foldl_nil]
      by_cases hEq : k * s + j = n * s + off
      · obtain ⟨hk, hja⟩ := rowcol_inj hoff hj hEq.symm
        rw [wrBuf, if_pos hEq]
        rw [if_pos ⟨by omega, hja.symm⟩, hk]
      · rw [wrBuf]
        simp only [hEq, if_false]
        rw [ih f k j hj]
        by_cases hc : k < n ∧ j = off
        · rw [if_pos hc, if_pos ⟨by omega, hc.2⟩]
        · have hc' : ¬ (k < n + 1 ∧ j = off) := by
            rintro ⟨hk1, rfl⟩
            rcases Nat.lt_succ_iff_lt_or_eq.mp hk1 with h' | h'
            · exact hc ⟨h', rfl⟩
            · exact hEq (by rw [h'])
          rw [if_neg hc, if_neg hc']

/-- The column-0 pass: cell `(k, 0)` holds `nccMainVal k 0` for `k < T`, and
cells `(k, j)` with `1 ≤ j` are untouched. -/
theorem col0Pass_apply (t : List ℚ) (L T : ℕ) (x : List ℚ) (Li N : ℕ) (f : ℕ → ℝ)
    (k j : ℕ) (hj : j < stepsOf L Li) :
    col0Pass t L T x Li N f (k * stepsOf L Li + j) =
      if k < T ∧ j = 0 then nccMainVal t L T x Li N k 0
      else f (k * stepsOf L Li + j) := by
  have h := foldl_wr_apply (stepsOf L Li) 0 (by omega)
    (fun u => nccMainVal t L T x Li N u 0) T f k j hj
  simpa [col0Pass] using h

/-- A single column pass at column `a`: cell `(k, j)` holds `nccMainVal k a`
exactly when `k < T` and `j = a`. -/
theorem colPass_apply (t : List ℚ) (L T : ℕ) (x : List ℚ) (Li N : ℕ) (f : ℕ → ℝ)
    (a k j : ℕ) (ha : a < stepsOf L Li) (hj : j < stepsOf L Li) :
    colPass t L T x Li N f a (k * stepsOf L Li + j) =
      if k < T ∧ j = a then nccMainVal t L T x Li N k a
      else f (k * stepsOf L Li + j) := by
  exact foldl_wr_apply (stepsOf L Li) a ha (fun u => nccMainVal t L T x Li N u a) T f k j hj

/-- Folding column passes over a list of valid column indices: cell `(k, j)`
(for `k < T`) holds `nccMainVal k j` when `j` occurs in the list and is
otherwise untouched. -/
theorem colsFold_apply (t : List ℚ) (L T : ℕ) (x : List ℚ) (Li N : ℕ) :
    ∀ (l : List ℕ), (∀ a ∈ l, a < stepsOf L Li) →
      ∀ (f : ℕ → ℝ) (k j : ℕ), k < T → j < stepsOf L Li →
        (l.foldl (fun g a => colPass t L T x Li N g a) f) (k * stepsOf L Li + j) =
          if j ∈ l then nccMainVal t L T x Li N k j
          else f (k * stepsOf L Li + j) := by
  intro l
  induction l with
  | nil => intro _ f k j _ _; simp
  | cons a l' ih =>
      intro hl f k j hk hj
      have ha : a < stepsOf L Li := hl a (List.mem_cons_self a l')
      have hl' : ∀ b ∈ l', b < stepsOf L Li := fun b hb => hl b (List.mem_cons_of_mem a hb)
      simp only [List.foldl_cons]
      rw [ih hl' _ k j hk hj]
      by_cases hmem : j ∈ l'
      · rw [if_pos hmem, if_pos (List.mem_cons_of_mem a hmem)]
      · rw [if_neg hmem, colPass_apply t L T x Li N f a k j ha hj]
        by_cases hja : j = a
        · subst hja
          rw [if_pos ⟨hk, rfl⟩, if_pos (List.mem_cons_self j l')]
        · rw [if_neg (by rintro ⟨_, h⟩; exact hja h),
            if_neg (by rw [List.mem_cons]; rintro (h | h) <;> [exact hja h; exact hmem h])]

/-- Characterisation of the kernel output: for `k < n_templates` and
`j < steps` the final buffer holds `nccMainVal k j` at flat index
`k * steps + j`. -/
theorem normxcorr_fftw_main_apply (t : List ℚ) (L T : ℕ) (x : List ℚ) (Li N : ℕ)
    (f : ℕ → ℝ) (k j : ℕ) (hk : k < T) (hj : j < stepsOf L Li) :
    (normxcorr_fftw_main t L T x Li f N).2 (k * stepsOf L Li + j) =
      nccMainVal t L T x Li N k j := by
  rw [normxcorr_fftw_main]
  dsimp only
  have hmem : ∀ a ∈ List.range' 1 (stepsOf L Li - 1), a < stepsOf L Li := by
    intro a hamem
    have := List.mem_range'_1.mp hamem
    omega
  rw [colsFold_apply t L T x Li N _ hmem _ k j hk hj]
  by_cases hj0 : j = 0
  · subst hj0
    rw [if_neg (by intro hc; have := (List.mem_range'_1.mp hc).1; omega)]
    rw [col0Pass_apply t L T x Li N f k 0 hj, if_pos ⟨hk, rfl⟩]
  · rw [if_pos (List.mem_range'_1.mpr ⟨by omega, by omega⟩)]

/-- For a column whose window variance strictly exceeds the floor, the value
the kernel writes is the centred cross-correlation divided by the window
standard deviation (no template-norm factor appears). -/
theorem nccMainVal_formula (t : List ℚ) (L T : ℕ) (x : List ℚ) (Li N k j : ℕ)
    (hL : 1 ≤ L) (hLi : L ≤ Li) (hN : L + Li ≤ N + 1) (hk : k < T)
    (hj : j < stepsOf L Li) (hvar : acceptedDiff < winVar x L j) :
    nccMainVal t L T x Li N k j =
      ((winNumer t L x k j : ℚ) : ℝ) / Real.sqrt ((winVar x L j : ℚ) : ℝ) := by
  have hNT : ((N : ℚ) * (T : ℚ)) ≠ 0 := by
    have hN1 : 1 ≤ N := by omega
    have hT1 : 1 ≤ T := by omega
    positivity
  have hjL : j + L ≤ Li := by
    unfold stepsOf at hj; omega
  have hcv : cValR t L T x Li N k j =
      ((winNumer t L x k j : ℚ) : ℝ) / Real.sqrt ((winVar x L j : ℚ) : ℝ) := by
    rw [cValR, cccModel_valid t L T x Li N k j hL hLi hN hjL,
      mul_div_cancel_left₀ _ hNT, meanAt_eq, winNumer_eq, varAt_eq x L hL]
  rw [nccMainVal]
  by_cases hj0 : j = 0
  · subst hj0
    rw [if_pos rfl, if_neg (by rw [varAt_eq x L hL]; exact not_lt.mpr (le_of_lt hvar)), hcv]
  · rw [if_neg hj0, if_pos (by rw [varAt_eq x L hL]; exact hvar), hcv]

/-- A window on which the image is constant has zero variance. -/
theorem winVar_const (x : List ℚ) (L j : ℕ) (hL : 1 ≤ L)
    (hc : ∀ p, p < L → x.getD (j + p) 0 = x.getD j 0) : winVar x L j = 0 := by
  have hL0 : (L : ℚ) ≠ 0 := by exact_mod_cast Nat.one_le_iff_ne_zero.mp hL
  have hmean : winMean x L j = x.getD j 0 := by
    rw [winMean]
    rw [Finset.sum_congr rfl fun i hi => hc i (Finset.mem_range.mp hi)]
    rw [Finset.sum_const, Finset.card_range, nsmul_eq_mul]
    field_simp
  rw [winVar]
  have hz : ∀ i ∈ Finset.range L, (x.getD (j + i) 0 - winMean x L j) ^ 2 = 0 := by
    intro i hi
    rw [hc i (Finset.mem_range.mp hi), hmean, sub_self]
    norm_num
  rw [Finset.sum_eq_zero hz, zero_div]

/-- The formula stated by the specification for claim C1, written from the
spec's words: `y[k][j] = ( Σ_p t[k][p] · (x[j+p] − μ_j) ) / ( σ_j · ‖t[k]‖ )`
with `‖t[k]‖` the Euclidean norm of template `k`.  Used only to compare the
spec's formula with the kernel's actual output. -/
noncomputable def specNccVal (t : List ℚ) (L : ℕ) (x : List ℚ) (k j : ℕ) : ℝ :=
  ((winNumer t L x k j : ℚ) : ℝ) /
    (Real.sqrt ((winVar x L j : ℚ) : ℝ) *
      Real.sqrt ((∑ p in Finset.range L, tAt t L k p ^ 2 : ℚ) : ℝ))

/-- Claim C1 (amended): for zero-mean templates and a column whose window
variance strictly exceeds the floor `ε`, the kernel output is
`( Σ_p t[k][p] · (x[j+p] − μ_j) ) / σ_j` — the claimed formula without the
`‖t[k]‖` factor (the two agree exactly when `‖t[k]‖ = 1`).  At
`σ_j² = ε` columns `j ≥ 1` emit `0` instead, so the floor comparison is
strict. -/
theorem claim_C1 (t : List ℚ) (L T : ℕ) (x : List ℚ) (Li N : ℕ) (f : ℕ → ℝ) (k j : ℕ)
    (hL : 1 ≤ L) (hLi : L ≤ Li) (hN : L + Li ≤ N + 1) (hk : k < T)
    (hj : j < stepsOf L Li) (hzm : norm_sums t L k = 0)
    (hvar : acceptedDiff < winVar x L j) :
    (normxcorr_fftw_main t L T x Li f N).2 (k * stepsOf L Li + j) =
      ((winNumer t L x k j : ℚ) : ℝ) / Real.sqrt ((winVar x L j : ℚ) : ℝ) := by
  rw [normxcorr_fftw_main_apply t L T x Li N f k j hk hj,
    nccMainVal_formula t L T x Li N k j hL hLi hN hk hj hvar]

/-- Witness for claim C1 at a concrete input: one zero-mean template
`[1, 1, -1, -1]` against image `[0, 0, 1, 1]` (window variance `1/4 > ε`). -/
theorem claim_C1_witness :
    acceptedDiff < winVar [0, 0, 1, 1] 4 0 ∧
    norm_sums [1, 1, -1, -1] 4 0 = 0 ∧
    (normxcorr_fftw_main [1, 1, -1, -1] 4 1 [0, 0, 1, 1] 4 (fun _ => 0) 8).2 0 =
      ((winNumer [1, 1, -1, -1] 4 [0, 0, 1, 1] 0 0 : ℚ) : ℝ) /
        Real.sqrt ((winVar [0, 0, 1, 1] 4 0 : ℚ) : ℝ) :=
  ⟨by norm_num [acceptedDiff, winVar, winMean, Finset.sum_range_succ, List.getD],
    by norm_num [norm_sums, tAt, Finset.sum_range_succ, List.getD],
    claim_C1 [1, 1, -1, -1] 4 1 [0, 0, 1, 1] 4 8 (fun _ => 0) 0 0
      (by decide) (by decide) (by decide) (by decide) (by decide)
      (by norm_num [norm_sums, tAt, Finset.sum_range_succ, List.getD])
      (by norm_num [acceptedDiff, winVar, winMean, Finset.sum_range_succ, List.getD])⟩

/-- Counterexample to claim C1 as stated: at the same concrete input the
kernel output is `-4` while the spec's formula (with the `‖t[k]‖` factor)
gives `-2`. -/
theorem claim_C1_cex :
    (normxcorr_fftw_main [1, 1, -1, -1] 4 1 [0, 0, 1, 1] 4 (fun _ => 0) 8).2 0 ≠
      specNccVal [1, 1, -1, -1] 4 [0, 0, 1, 1] 0 0 := by
  have hsq : Real.sqrt ((1 : ℝ) / 4) = 1 / 2 := by
    rw [show (1 : ℝ) / 4 = (1 / 2) ^ 2 by norm_num,
      Real.sqrt_sq (by norm_num : (0 : ℝ) ≤ 1 / 2)]
  have hs4 : Real.sqrt ((4 : ℝ)) = 2 := by
    rw [show (4 : ℝ) = 2 ^ 2 by norm_num, Real.sqrt_sq (by norm_num : (0 : ℝ) ≤ 2)]
  have hL : (normxcorr_fftw_main [1, 1, -1, -1] 4 1 [0, 0, 1, 1] 4 (fun _ => 0) 8).2 0 =
      ((winNumer [1, 1, -1, -1] 4 [0, 0, 1, 1] 0 0 : ℚ) : ℝ) /
        Real.sqrt ((winVar [0, 0, 1, 1] 4 0 : ℚ) : ℝ) := by
    have happly := normxcorr_fftw_main_apply [1, 1, -1, -1] 4 1 [0, 0, 1, 1] 4 8
      (fun _ => 0) 0 0 (by decide) (by decide)
    rw [show (0 : ℕ) * stepsOf 4 4 + 0 = 0 from rfl] at happly
    rw [happly,
      nccMainVal_formula _ _ _ _ _ _ 0 0 (by decide) (by decide) (by decide) (by decide)
        (by decide)
        (by norm_num [acceptedDiff, winVar, winMean, Finset.sum_range_succ, List.getD])]
  rw [hL, specNccVal]
  rw [show winNumer [1, 1, -1, -1] 4 [0, 0, 1, 1] 0 0 = -2 by
      norm_num [winNumer, winMean, tAt, Finset.sum_range_succ, List.getD],
    show winVar [0, 0, 1, 1] 4 0 = 1 / 4 by
      norm_num [winVar, winMean, Finset.sum_range_succ, List.getD],
    show (∑ p in Finset.range 4, tAt [1, 1, -1, -1] 4 0 p ^ 2 : ℚ) = 4 by
      norm_num [tAt, Finset.sum_range_succ, List.getD]]
  push_cast
  rw [hsq, hs4]
  norm_num

/-- Claim C2: a column whose window variance is below the floor `ε = 10⁻⁷`
(in particular a constant window) yields exactly `0` for every template, and
the kernel still returns success. -/
theorem claim_C2 (t : List ℚ) (L T : ℕ) (x : List ℚ) (Li N : ℕ) (f : ℕ → ℝ) (k j : ℕ)
    (hL : 1 ≤ L) (hk : k < T) (hj : j < stepsOf L Li)
    (hvar : winVar x L j < acceptedDiff ∨ ∀ p, p < L → x.getD (j + p) 0 = x.getD j 0) :
    (normxcorr_fftw_main t L T x Li f N).2 (k * stepsOf L Li + j) = 0 ∧
    (normxcorr_fftw_main t L T x Li f N).1 = 0 := by
  have hv : winVar x L j < acceptedDiff := by
    rcases hvar with h | h
    · exact h
    · rw [winVar_const x L j hL h, acceptedDiff]; norm_num
  refine ⟨?_, rfl⟩
  rw [normxcorr_fftw_main_apply t L T x Li N f k j hk hj, nccMainVal]
  by_cases hj0 : j = 0
  · subst hj0
    rw [if_pos rfl, if_pos (by rw [varAt_eq x L hL]; exact hv)]
  · rw [if_neg hj0, if_neg (by rw [varAt_eq x L hL]; exact not_lt.mpr (le_of_lt hv))]

/-- Witness for claim C2: a constant image yields `0` at column `1` and
status `0`. -/
theorem claim_C2_witness :
    winVar [3, 3, 3] 2 1 < acceptedDiff ∧
    (normxcorr_fftw_main [1, -1] 2 1 [3, 3, 3] 3 (fun _ => 5) 4).2 (0 * stepsOf 2 3 + 1) = 0 ∧
    (normxcorr_fftw_main [1, -1] 2 1 [3, 3, 3] 3 (fun _ => 5) 4).1 = 0 :=
  ⟨by norm_num [acceptedDiff, winVar, winMean, Finset.sum_range_succ, List.getD],
    (claim_C2 [1, -1] 2 1 [3, 3, 3] 3 4 (fun _ => 5) 0 1
      (by decide) (by decide) (by decide)
      (Or.inl (by norm_num [acceptedDiff, winVar, winMean, Finset.sum_range_succ, List.getD]))).1,
    (claim_C2 [1, -1] 2 1 [3, 3, 3] 3 4 (fun _ => 5) 0 1
      (by decide) (by decide) (by decide)
      (Or.inl (by norm_num [acceptedDiff, winVar, winMean, Finset.sum_range_succ, List.getD]))).2⟩

/-- Claim C9 (amended): with `n_templates = 0` the kernel is a no-op
returning success — it returns status `0` and leaves the output buffer
untouched.  (With `steps = 0` but `n_templates ≥ 1` it is *not* a no-op:
the column-0 loop still writes `ncc[0]`; see the counterexample.) -/
theorem claim_C9 (t : List ℚ) (L : ℕ) (x : List ℚ) (Li N : ℕ) (f : ℕ → ℝ) :
    normxcorr_fftw_main t L 0 x Li f N = (0, f) := by
  rw [normxcorr_fftw_main]
  have hcol0 : col0Pass t L 0 x Li N f = f := by
    rw [col0Pass]; rfl
  have hfold : ∀ (l : List ℕ) (g : ℕ → ℝ),
      l.foldl (fun g j => colPass t L 0 x Li N g j) g = g := by
    intro l
    induction l with
    | nil => intro g; rfl
    | cons a l' ih =>
        intro g
        rw [List.foldl_cons]
        rw [show colPass t L 0 x Li N g a = g from by rw [colPass]; rfl]
        exact ih g
  rw [hcol0, hfold]

/-- Counterexample to claim C9 as stated: with `n_templates = 1`,
`template_len = 2`, `image_len = 1` (so `steps = 0`) the kernel still returns
`0` but writes the cell `ncc[0]` (the column-0 loop runs unconditionally), so
it does not "write nothing". -/
theorem claim_C9_cex :
    (normxcorr_fftw_main [1, 2] 2 1 [5] 1 (fun _ => 37) 8).2 0 ≠ 37 ∧
    (normxcorr_fftw_main [1, 2] 2 1 [5] 1 (fun _ => 37) 8).1 = 0 := by
  constructor
  · have h0 : (normxcorr_fftw_main [1, 2] 2 1 [5] 1 (fun _ => 37) 8).2 0 =
        nccMainVal [1, 2] 2 1 [5] 1 8 0 0 := by
      rw [normxcorr_fftw_main]
      dsimp only
      rw [show List.range' 1 (stepsOf 2 1 - 1) = [] from rfl, List.foldl_nil,
        col0Pass, show List.range 1 = [0] from rfl, List.foldl_cons, List.foldl_nil,
        wrBuf]
      rfl
    have hvar : varAt [5] 2 0 = 25 / 4 := by
      norm_num [varAt, meanAt, Finset.sum_range_succ, List.getD]
    rw [h0, nccMainVal, if_pos rfl,
      if_neg (by rw [hvar, acceptedDiff]; norm_num), cValR]
    rw [show cccModel [1, 2] 2 1 [5] 1 8 0 (2 - 1 + 0) = 40 from by
        norm_num [cccModel, tExt, xExt, tAt, circIdx, Finset.sum_range_succ, List.getD],
      show norm_sums [1, 2] 2 0 = 3 from by
        norm_num [norm_sums, tAt, Finset.sum_range_succ, List.getD],
      show meanAt [5] 2 0 = 5 / 2 from by
        norm_num [meanAt, Finset.sum_range_succ, List.getD],
      hvar]
    have hsq : Real.sqrt ((25 / 4 : ℚ) : ℝ) = 5 / 2 := by
      rw [show ((25 / 4 : ℚ) : ℝ) = (5 / 2) ^ 2 by push_cast; norm_num,
        Real.sqrt_sq (by norm_num : (0 : ℝ) ≤ 5 / 2)]
    rw [hsq]
    push_cast
    norm_num
  · rfl

/-- Template autocorrelation `auto_a = Σ_p template[p] * template[p]` of
`normxcorr_time` (multi_corr.c lines 365-366); constant across offsets. -/
def autoA (t : List ℚ) (L : ℕ) : ℚ :=
  ∑ p in Finset.range L, t.getD p 0 * t.getD p 0

/-- Image-window autocorrelation `auto_b = Σ_p (image[p+k] - mean)²` recomputed
from scratch at each offset `k` by `normxcorr_time` (lines 368 and 378), with
`mean` the running window mean. -/
def timeAutoB (x : List ℚ) (L k : ℕ) : ℚ :=
  ∑ p in Finset.range L, (x.getD (p + k) 0 - meanAt x L k) * (x.getD (p + k) 0 - meanAt x L k)

/-- Numerator `Σ_p template[p] * (image[p+k] - mean)` recomputed at each offset
`k` by `normxcorr_time` (lines 367 and 377). -/
def timeNumer (t : List ℚ) (L : ℕ) (x : List ℚ) (k : ℕ) : ℚ :=
  ∑ p in Finset.range L, t.getD p 0 * (x.getD (p + k) 0 - meanAt x L k)

/-- One output sample of `normxcorr_time`.  The C code computes
`ccc[k] = numerator / sqrt(auto_a * auto_b)` with no guard on the divisor
(lines 370-371 and 380-381); when `auto_a * auto_b = 0` the IEEE division by
zero produces NaN (for a zero numerator) or `±inf`, collapsed here into the
`nonfinite` marker. -/
inductive TimeSample where
  | nonfinite : TimeSample
  | val : ℝ → TimeSample

/-- The value `normxcorr_time` stores at offset `k`. -/
noncomputable def normxcorr_time_sample (t : List ℚ) (L : ℕ) (x : List ℚ) (k : ℕ) :
    TimeSample :=
  if autoA t L * timeAutoB x L k = 0 then TimeSample.nonfinite
  else TimeSample.val
    (((timeNumer t L x k : ℚ) : ℝ) / Real.sqrt ((autoA t L * timeAutoB x L k : ℚ) : ℝ))

/-- Claim C10: the time-domain kernel applies no variance floor — on a
constant image window (or an identically zero template) the divisor
`sqrt(auto_a * auto_b)` is zero and the unguarded division produces a
non-finite sample, whereas the FFT kernel emits exactly `0` at the same
column. -/
theorem claim_C10 (t : List ℚ) (L : ℕ) (x : List ℚ) (Li N : ℕ) (k : ℕ)
    (hL : 1 ≤ L) (hk : k < stepsOf L Li)
    (h : (∀ p, p < L → x.getD (k + p) 0 = x.getD k 0) ∨ (∀ p, p < L → t.getD p 0 = 0)) :
    autoA t L * timeAutoB x L k = 0 ∧
    normxcorr_time_sample t L x k = TimeSample.nonfinite ∧
    nccMainVal t L 1 x Li N 0 k = 0 := by
  have hprod : autoA t L * timeAutoB x L k = 0 := by
    rcases h with hx | ht
    · have hb : timeAutoB x L k = 0 := by
        rw [timeAutoB]
        refine Finset.sum_eq_zero fun p hp => ?_
        have hpL := Finset.mem_range.mp hp
        have hmean : meanAt x L k = x.getD k 0 := by
          rw [meanAt_eq]
          rw [winMean, Finset.sum_congr rfl fun i hi => by
            rw [show k + i = k + i from rfl, hx i (Finset.mem_range.mp hi)]]
          rw [Finset.sum_const, Finset.card_range, nsmul_eq_mul]
          have hL0 : (L : ℚ) ≠ 0 := by exact_mod_cast Nat.one_le_iff_ne_zero.mp hL
          field_simp
        rw [show p + k = k + p from by omega, hx p hpL, hmean, sub_self, mul_zero]
      rw [hb, mul_zero]
    · have ha : autoA t L = 0 := by
        rw [autoA]
        refine Finset.sum_eq_zero fun p hp => ?_
        rw [ht p (Finset.mem_range.mp hp), mul_zero]
      rw [ha, zero_mul]
  refine ⟨hprod, by rw [normxcorr_time_sample, if_pos hprod], ?_⟩
  rcases h with hx | ht
  · have hv : winVar x L k = 0 := winVar_const x L k hL hx
    rw [nccMainVal]
    by_cases hk0 : k = 0
    · subst hk0
      rw [if_pos rfl, if_pos (by rw [varAt_eq x L hL, hv, acceptedDiff]; norm_num)]
    · rw [if_neg hk0,
        if_neg (by rw [varAt_eq x L hL, hv, acceptedDiff]; norm_num)]
  · have hccc : cccModel t L 1 x Li N 0 (L - 1 + k) = 0 := by
      rw [cccModel]
      have : ∀ m ∈ Finset.range N,
          tExt t L 0 m * xExt x Li (circIdx N (L - 1 + k) m) = 0 := by
        intro m _
        rw [tExt]
        by_cases hm : m < L
        · rw [if_pos hm, tAt, show 0 * L + (L - 1 - m) = L - 1 - m from by omega,
            ht (L - 1 - m) (by omega), zero_mul]
        · rw [if_neg hm, zero_mul]
      rw [Finset.sum_eq_zero this, mul_zero]
    have hns : norm_sums t L 0 = 0 := by
      rw [norm_sums]
      refine Finset.sum_eq_zero fun p hp => ?_
      rw [tAt, show 0 * L + p = p from by omega, ht p (Finset.mem_range.mp hp)]
    have hcv : cValR t L 1 x Li N 0 k = 0 := by
      rw [cValR, hccc, hns]
      push_cast
      norm_num
    rw [nccMainVal]
    by_cases hk0 : k = 0
    · subst hk0
      rw [if_pos rfl]
      split <;> [rfl; exact hcv]
    · rw [if_neg hk0]
      split <;> [exact hcv; rfl]

/-- Witness for claim C10: template `[1, 2]` against the constant image
`[5, 5]` — the time-domain sample is non-finite while the FFT kernel value is
`0`. -/
theorem claim_C10_witness :
    autoA [1, 2] 2 * timeAutoB [5, 5] 2 0 = 0 ∧
    normxcorr_time_sample [1, 2] 2 [5, 5] 0 = TimeSample.nonfinite ∧
    nccMainVal [1, 2] 2 1 [5, 5] 2 4 0 0 = 0 :=
  claim_C10 [1, 2] 2 [5, 5] 2 4 0 (by decide) (by decide)
    (Or.inl (by intro p hp; interval_cases p <;> norm_num [List.getD]))

/-- A single-precision value as seen by the post-processing stage of
`multi_normxcorr_fftw`: a finite float (an exact rational) or one of the IEEE
specials. -/
inductive FVal where
  | fin : ℚ → FVal
  | nan : FVal
  | pinf : FVal
  | ninf : FVal
deriving DecidableEq

/-- `isnanf` (multi_corr.c line 574). -/
def FVal.isnanf : FVal → Bool
  | .nan => true
  | _ => false

/-- `fabsf(v) > 1.01` (line 578); `fabsf` of an infinity is `+inf`, which
exceeds the tolerance, and every comparison with NaN is false. -/
def FVal.absGtTol : FVal → Bool
  | .fin q => decide ((101 / 100 : ℚ) < |q|)
  | .nan => false
  | .pinf => true
  | .ninf => true

/-- `v > 1.0` (line 582). -/
def FVal.gtOne : FVal → Bool
  | .fin q => decide ((1 : ℚ) < q)
  | .pinf => true
  | _ => false

/-- `v < -1.0` (line 585). -/
def FVal.ltNegOne : FVal → Bool
  | .fin q => decide (q < (-1 : ℚ))
  | .ninf => true
  | _ => false

/-- The sanitising cascade applied to one kept sample (lines 573-587): NaN
becomes `0`; a magnitude above `1.01` is left in place (only counted); values
in `(1, 1.01]` clamp to `1` and symmetrically to `-1`. -/
def sanitizeVal (v : FVal) : FVal :=
  if v.isnanf then .fin 0
  else if v.absGtTol then v
  else if v.gtOne then .fin 1
  else if v.ltNegOne then .fin (-1)
  else v

/-- Contribution of one kept sample to the overflow counter `s` (line 579). -/
def sanitizeCnt (v : FVal) : ℕ :=
  if v.isnanf then 0 else if v.absGtTol then 1 else 0

/-- Effect on the buffer of the mask/sanitise step for one `(channel,
template)` trace occupying `[base, base + steps)` (lines 564-589): a masked
trace is zeroed, a kept trace is sanitised samplewise. -/
def sanTraceF (u : Bool) (steps base : ℕ) (f : ℕ → FVal) : ℕ → FVal :=
  fun idx =>
    if base ≤ idx ∧ idx < base + steps then
      (if u then sanitizeVal (f idx) else .fin 0)
    else f idx

/-- Total overflow count contributed by one trace: masked traces contribute
nothing (the counter is only touched in the kept branch, line 579). -/
def traceCnt (u : Bool) (steps base : ℕ) (f : ℕ → FVal) : ℕ :=
  if u then ∑ j in Finset.range steps, sanitizeCnt (f (base + j)) else 0

/-- The pad shift (lines 591-601): `ncc[m] := ncc[m + pad]` for
`m < steps - pad` then the tail is zeroed.  The overlapping forward copy
always reads an index not yet written, so the samplewise form is exact. -/
def padShiftAt (p steps base : ℕ) (f : ℕ → FVal) : ℕ → FVal :=
  fun idx =>
    if base ≤ idx ∧ idx < base + steps then
      (if idx - base < steps - p then f (idx + p) else .fin 0)
    else f idx

/-- Post-processing of one trace (the body of the `j` loop at lines 560-602):
mask or sanitise, add this trace's overflow count to the running counter `s`,
and apply the pad shift only if `s` is still zero at that point. -/
def procTrace (u : Bool) (p steps base : ℕ) (st : (ℕ → FVal) × ℕ) : (ℕ → FVal) × ℕ :=
  let f1 := sanTraceF u steps base st.1
  let s1 := st.2 + traceCnt u steps base st.1
  if s1 = 0 then (padShiftAt p steps base f1, s1) else (f1, s1)

/-- The full post-processing pass over all `(channel, template)` traces in
processing order (sequential execution of the channel loop at line 535 and
the template loop at line 560): trace `τ = c * n_templates + k` occupies
`[τ * steps, (τ+1) * steps)`, and `used_chans` and `pad_array` are indexed by
the same flat `τ` (lines 564 and 595). -/
def multiPost (C T steps : ℕ) (used : ℕ → Bool) (pad : ℕ → ℕ) (f0 : ℕ → FVal) :
    (ℕ → FVal) × ℕ :=
  (List.range (C * T)).foldl
    (fun st τ => procTrace (used τ) (pad τ) steps (τ * steps) st) (f0, 0)

/-- Overflow count accumulated over the first `τ` traces. -/
def sUpTo (used : ℕ → Bool) (steps : ℕ) (f0 : ℕ → FVal) (τ : ℕ) : ℕ :=
  ∑ i in Finset.range τ, traceCnt (used i) steps (i * steps) f0

/-- Final contents of trace `τ` after its own processing: the sanitised (or
zeroed) trace, pad-shifted exactly when the overflow counter is still zero
just after this trace's sanitisation. -/
def traceFinalBuf (used : ℕ → Bool) (pad : ℕ → ℕ) (steps : ℕ) (f0 : ℕ → FVal) (τ : ℕ) :
    ℕ → FVal :=
  if sUpTo used steps f0 (τ + 1) = 0 then
    padShiftAt (pad τ) steps (τ * steps) (sanTraceF (used τ) steps (τ * steps) f0)
  else sanTraceF (used τ) steps (τ * steps) f0

/-- Buffer contents after processing the first `n` traces. -/
def postBufAt (used : ℕ → Bool) (pad : ℕ → ℕ) (steps : ℕ) (f0 : ℕ → FVal) (n : ℕ) :
    ℕ → FVal :=
  fun idx =>
    if idx < n * steps then traceFinalBuf used pad steps f0 (idx / steps) idx else f0 idx

/-- IEEE addition on post-processed values (exact in the finite case). -/
def FVal.add : FVal → FVal → FVal
  | .fin a, .fin b => .fin (a + b)
  | .nan, _ => .nan
  | _, .nan => .nan
  | .pinf, .ninf => .nan
  | .ninf, .pinf => .nan
  | .pinf, _ => .pinf
  | _, .pinf => .pinf
  | .ninf, _ => .ninf
  | _, .ninf => .ninf

/-- The in-place accumulation across channels (lines 624-638): for each cell
of the first channel plane, the values of the same cell in planes
`1 .. n_channels - 1` are added in increasing channel order. -/
def reduceBuf (C T steps : ℕ) (f : ℕ → FVal) : ℕ → FVal :=
  fun idx =>
    if idx < T * steps then
      (List.range' 1 (C - 1)).foldl (fun acc c => acc.add (f (idx + c * (T * steps)))) (f idx)
    else f idx

/-- `multi_normxcorr_fftw` (multi_corr.c lines 409-642) from the point where
the kernel phase has filled the `ncc` buffer: `f0` is the buffer contents
produced by the per-channel `normxcorr_fftw_main` calls (arbitrary
single-precision values), and `allocOk` records whether the workspace
allocations succeeded (the heap is external; on failure the function frees
the partial allocations and returns `1` before touching `ncc`).  The inner
kernel always returns `0` (`normxcorr_fftw_main_status`), so the `r != 0`
branch at line 617 is dead: the status is `-1` exactly when the overflow
counter is non-zero (lines 620-622), and on success the channel accumulation
runs (lines 624-638). -/
def multi_normxcorr_fftw (allocOk : Bool) (C T steps : ℕ) (used : ℕ → Bool)
    (pad : ℕ → ℕ) (f0 : ℕ → FVal) : ℤ × (ℕ → FVal) :=
  if allocOk = false then (1, f0)
  else if (multiPost C T steps used pad f0).2 ≠ 0 then (-1, (multiPost C T steps used pad f0).1)
  else (0, reduceBuf C T steps (multiPost C T steps used pad f0).1)

/-- The inner kernel never fails: `normxcorr_fftw_main` returns `0`
unconditionally (line 349). -/
theorem normxcorr_fftw_main_status (t : List ℚ) (L T : ℕ) (x : List ℚ) (Li N : ℕ)
    (f : ℕ → ℝ) : (normxcorr_fftw_main t L T x Li f N).1 = 0 := rfl

/-- The overflow count of a trace depends only on the buffer's values on that
trace. -/
theorem traceCnt_congr (u : Bool) (steps base : ℕ) (f f' : ℕ → FVal)
    (h : ∀ j, j < steps → f (base + j) = f' (base + j)) :
    traceCnt u steps base f = traceCnt u steps base f' := by
  rw [traceCnt, traceCnt]
  cases u with
  | false => rfl
  | true =>
      simp only [if_pos]
      exact Finset.sum_congr rfl fun j hj => by rw [h j (Finset.mem_range.mp hj)]

/-- Processing the first `n` traces yields the closed-form buffer `postBufAt`
and the accumulated overflow count `sUpTo`. -/
theorem multiPost_closed (used : ℕ → Bool) (pad : ℕ → ℕ) (steps : ℕ) (f0 : ℕ → FVal) :
    ∀ n, (List.range n).foldl
        (fun st τ => procTrace (used τ) (pad τ) steps (τ * steps) st) (f0, 0) =
      (postBufAt used pad steps f0 n, sUpTo used steps f0 n) := by
  intro n
  induction n with
  | zero =>
      refine Prod.ext ?_ ?_
      · funext idx
        simp [postBufAt]
      · simp [sUpTo]
  | succ n ih =>
      rw [List.range_succ, List.foldl_append, ih]
      simp only [List.foldl_cons, List.foldl_nil]
      have hbuf0 : ∀ idx, n * steps ≤ idx →
          postBufAt used pad steps f0 n idx = f0 idx := by
        intro idx h1
        simp only [postBufAt]
        rw [if_neg (by omega)]
      have hcnt : traceCnt (used n) steps (n * steps) (postBufAt used pad steps f0 n) =
          traceCnt (used n) steps (n * steps) f0 :=
        traceCnt_congr _ _ _ _ _ fun j _ => hbuf0 (n * steps + j) (by omega)
      have hs1 : sUpTo used steps f0 n +
          traceCnt (used n) steps (n * steps) (postBufAt used pad steps f0 n) =
          sUpTo used steps f0 (n + 1) := by
        rw [hcnt, sUpTo, sUpTo, Finset.sum_range_succ]
      have hsan : ∀ idx, n * steps ≤ idx →
          sanTraceF (used n) steps (n * steps) (postBufAt used pad steps f0 n) idx =
            sanTraceF (used n) steps (n * steps) f0 idx := by
        intro idx h1
        simp only [sanTraceF, hbuf0 idx h1]
      have hmain : (if sUpTo used steps f0 (n + 1) = 0 then
            (padShiftAt (pad n) steps (n * steps)
              (sanTraceF (used n) steps (n * steps) (postBufAt used pad steps f0 n)),
              sUpTo used steps f0 (n + 1))
          else
            (sanTraceF (used n) steps (n * steps) (postBufAt used pad steps f0 n),
              sUpTo used steps f0 (n + 1))) =
          (postBufAt used pad steps f0 (n + 1), sUpTo used steps f0 (n + 1)) := by
        by_cases hz : sUpTo used steps f0 (n + 1) = 0
        · rw [if_pos hz]
          refine Prod.ext ?_ rfl
          funext idx
          simp only [postBufAt]
          by_cases hin : n * steps ≤ idx ∧ idx < n * steps + steps
          · have hdiv : idx / steps = n :=
              Nat.div_eq_of_lt_le hin.1 (by rw [Nat.succ_mul]; omega)
            rw [if_pos (by rw [Nat.succ_mul]; omega), hdiv, traceFinalBuf, if_pos hz]
            simp only [padShiftAt, if_pos hin]
            by_cases hcopy : idx - n * steps < steps - pad n
            · rw [if_pos hcopy, if_pos hcopy, hsan (idx + pad n) (by omega)]
            · rw [if_neg hcopy, if_neg hcopy]
          · simp only [padShiftAt]
            rw [if_neg hin]
            simp only [sanTraceF]
            rw [if_neg hin]
            rcases (by omega : idx < n * steps ∨ n * steps + steps ≤ idx) with hlt | hge
            · rw [if_pos (by rw [Nat.succ_mul]; omega)]
              simp only [postBufAt]
              rw [if_pos hlt]
            · rw [if_neg (by rw [Nat.succ_mul]; omega), hbuf0 idx (by omega)]
        · rw [if_neg hz]
          refine Prod.ext ?_ rfl
          funext idx
          simp only [postBufAt]
          by_cases hin : n * steps ≤ idx ∧ idx < n * steps + steps
          · have hdiv : idx / steps = n :=
              Nat.div_eq_of_lt_le hin.1 (by rw [Nat.succ_mul]; omega)
            rw [hsan idx hin.1, if_pos (by rw [Nat.succ_mul]; omega), hdiv,
              traceFinalBuf, if_neg hz]
          · simp only [sanTraceF]
            rw [if_neg hin]
            rcases (by omega : idx < n * steps ∨ n * steps + steps ≤ idx) with hlt | hge
            · rw [if_pos (by rw [Nat.succ_mul]; omega)]
              simp only [postBufAt]
              rw [if_pos hlt]
            · rw [if_neg (by rw [Nat.succ_mul]; omega), hbuf0 idx (by omega)]
      calc procTrace (used n) (pad n) steps (n * steps)
              (postBufAt used pad steps f0 n, sUpTo used steps f0 n)
          = (if sUpTo used steps f0 (n + 1) = 0 then
              (padShiftAt (pad n) steps (n * steps)
                (sanTraceF (used n) steps (n * steps) (postBufAt used pad steps f0 n)),
                sUpTo used steps f0 (n + 1))
            else
              (sanTraceF (used n) steps (n * steps) (postBufAt used pad steps f0 n),
                sUpTo used steps f0 (n + 1))) := by
            simp only [procTrace, hs1]
        _ = (postBufAt used pad steps f0 (n + 1), sUpTo used steps f0 (n + 1)) := hmain

/-- `multiPost` in closed form. -/
theorem multiPost_eq (C T steps : ℕ) (used : ℕ → Bool) (pad : ℕ → ℕ) (f0 : ℕ → FVal) :
    multiPost C T steps used pad f0 =
      (postBufAt used pad steps f0 (C * T), sUpTo used steps f0 (C * T)) :=
  multiPost_closed used pad steps f0 (C * T)

/-- Sanitising never produces NaN: NaN itself is replaced by `0` and every
other value is mapped to a non-NaN value. -/
theorem sanitizeVal_ne_nan (v : FVal) : sanitizeVal v ≠ FVal.nan := by
  rw [sanitizeVal]
  split_ifs with h1 h2 h3 h4
  · exact fun h => FVal.noConfusion h
  · intro h
    rw [h] at h1
    exact h1 rfl
  · exact fun h => FVal.noConfusion h
  · exact fun h => FVal.noConfusion h
  · intro h
    rw [h] at h1
    exact h1 rfl

/-- A sample that does not trip the overflow counter sanitises to a finite
value of magnitude at most `1`. -/
theorem sanitizeVal_bounded (v : FVal) (h : sanitizeCnt v = 0) :
    ∃ q : ℚ, sanitizeVal v = .fin q ∧ |q| ≤ 1 := by
  cases v with
  | nan => exact ⟨0, by rw [sanitizeVal]; rfl, by norm_num⟩
  | pinf => exact absurd h (by rw [sanitizeCnt]; simp [FVal.isnanf, FVal.absGtTol])
  | ninf => exact absurd h (by rw [sanitizeCnt]; simp [FVal.isnanf, FVal.absGtTol])
  | fin q =>
      have habs : ¬ ((101 / 100 : ℚ) < |q|) := by
        by_contra hq
        rw [sanitizeCnt] at h
        simp [FVal.isnanf, FVal.absGtTol, hq] at h
      rw [sanitizeVal]
      simp only [FVal.isnanf, FVal.absGtTol, FVal.gtOne, FVal.ltNegOne,
        Bool.false_eq_true, if_false, decide_eq_true_eq, habs]
      by_cases h1 : (1 : ℚ) < q
      · exact ⟨1, by rw [if_pos h1], by norm_num⟩
      · rw [if_neg h1]
        by_cases h2 : q < (-1 : ℚ)
        · exact ⟨-1, by rw [if_pos h2], by norm_num⟩
        · exact ⟨q, by rw [if_neg h2], abs_le.mpr ⟨by linarith, by linarith⟩⟩

/-- If the overflow counter is still zero after trace `τ`, every sample of
trace `τ` in the final buffer is finite with magnitude at most `1`
(kept traces are sanitised and pad-shifted; masked traces are zero). -/
theorem traceFinalBuf_bounded (used : ℕ → Bool) (pad : ℕ → ℕ) (steps : ℕ)
    (f0 : ℕ → FVal) (τ j : ℕ) (hj : j < steps)
    (hz : sUpTo used steps f0 (τ + 1) = 0) :
    ∃ q : ℚ, traceFinalBuf used pad steps f0 τ (τ * steps + j) = .fin q ∧ |q| ≤ 1 := by
  have hcnt : traceCnt (used τ) steps (τ * steps) f0 = 0 := by
    have := hz
    rw [sUpTo, Finset.sum_range_succ] at this
    omega
  have hsample : used τ = true → ∀ i, i < steps →
      sanitizeCnt (f0 (τ * steps + i)) = 0 := by
    intro hu i hi
    rw [traceCnt, if_pos hu] at hcnt
    have := (Finset.sum_eq_zero_iff.mp hcnt) i (Finset.mem_range.mpr hi)
    exact this
  have hg : ∀ i, i < steps →
      ∃ q : ℚ, sanTraceF (used τ) steps (τ * steps) f0 (τ * steps + i) = .fin q ∧
        |q| ≤ 1 := by
    intro i hi
    rw [sanTraceF, if_pos ⟨by omega, by omega⟩]
    cases hu : used τ with
    | false => exact ⟨0, rfl, by norm_num⟩
    | true => exact sanitizeVal_bounded _ (hsample hu i hi)
  rw [traceFinalBuf, if_pos hz, padShiftAt, if_pos ⟨by omega, by omega⟩]
  by_cases hcopy : τ * steps + j - τ * steps < steps - pad τ
  · rw [if_pos hcopy]
    have : τ * steps + j + pad τ = τ * steps + (j + pad τ) := by omega
    rw [this]
    exact hg (j + pad τ) (by omega)
  · rw [if_neg hcopy]
    exact ⟨0, rfl, by norm_num⟩

/-- Every in-trace sample of the final buffer is non-NaN, with or without
overflow. -/
theorem traceFinalBuf_ne_nan (used : ℕ → Bool) (pad : ℕ → ℕ) (steps : ℕ)
    (f0 : ℕ → FVal) (τ j : ℕ) (hj : j < steps) :
    traceFinalBuf used pad steps f0 τ (τ * steps + j) ≠ FVal.nan := by
  have hg : ∀ i, i < steps →
      sanTraceF (used τ) steps (τ * steps) f0 (τ * steps + i) ≠ FVal.nan := by
    intro i hi
    rw [sanTraceF, if_pos ⟨by omega, by omega⟩]
    cases used τ with
    | false => exact fun h => FVal.noConfusion h
    | true => exact sanitizeVal_ne_nan _
  rw [traceFinalBuf]
  by_cases hz : sUpTo used steps f0 (τ + 1) = 0
  · rw [if_pos hz, padShiftAt, if_pos ⟨by omega, by omega⟩]
    by_cases hcopy : τ * steps + j - τ * steps < steps - pad τ
    · rw [if_pos hcopy, show τ * steps + j + pad τ = τ * steps + (j + pad τ) from by omega]
      exact hg (j + pad τ) (by omega)
    · rw [if_neg hcopy]
      exact fun h => FVal.noConfusion h
  · rw [if_neg hz]
    exact hg j hj

/-- A masked trace is identically zero in the final buffer. -/
theorem traceFinalBuf_masked (used : ℕ → Bool) (pad : ℕ → ℕ) (steps : ℕ)
    (f0 : ℕ → FVal) (τ j : ℕ) (hj : j < steps) (hu : used τ = false) :
    traceFinalBuf used pad steps f0 τ (τ * steps + j) = .fin 0 := by
  have hg : ∀ i, i < steps →
      sanTraceF (used τ) steps (τ * steps) f0 (τ * steps + i) = .fin 0 := by
    intro i hi
    rw [sanTraceF, if_pos ⟨by omega, by omega⟩, hu]
    rfl
  rw [traceFinalBuf]
  by_cases hz : sUpTo used steps f0 (τ + 1) = 0
  · rw [if_pos hz, padShiftAt, if_pos ⟨by omega, by omega⟩]
    by_cases hcopy : τ * steps + j - τ * steps < steps - pad τ
    · rw [if_pos hcopy, show τ * steps + j + pad τ = τ * steps + (j + pad τ) from by omega]
      exact hg (j + pad τ) (by omega)
    · rw [if_neg hcopy]
  · rw [if_neg hz]
    exact hg j hj

/-- Looking up an in-tensor sample of the post-processed buffer lands in its
trace's `traceFinalBuf`. -/
theorem multiPost_buf_apply (C T steps : ℕ) (used : ℕ → Bool) (pad : ℕ → ℕ)
    (f0 : ℕ → FVal) (τ j : ℕ) (hτ : τ < C * T) (hj : j < steps) :
    (multiPost C T steps used pad f0).1 (τ * steps + j) =
      traceFinalBuf used pad steps f0 τ (τ * steps + j) := by
  rw [multiPost_eq]
  have hlt : τ * steps + j < C * T * steps := by
    have h1 : τ * steps + j < (τ + 1) * steps := by rw [Nat.succ_mul]; omega
    have h2 : (τ + 1) * steps ≤ C * T * steps := Nat.mul_le_mul_right _ (by omega)
    omega
  have hdiv : (τ * steps + j) / steps = τ :=
    Nat.div_eq_of_lt_le (by omega) (by rw [Nat.succ_mul]; omega)
  show postBufAt used pad steps f0 (C * T) (τ * steps + j) = _
  rw [postBufAt]
  simp only [hlt, if_true, hdiv]

/-- Status `0` forces successful allocation and a zero overflow count. -/
theorem multi_status_zero (allocOk : Bool) (C T steps : ℕ) (used : ℕ → Bool)
    (pad : ℕ → ℕ) (f0 : ℕ → FVal)
    (h0 : (multi_normxcorr_fftw allocOk C T steps used pad f0).1 = 0) :
    allocOk = true ∧ sUpTo used steps f0 (C * T) = 0 := by
  rw [multi_normxcorr_fftw] at h0
  by_cases ha : allocOk = false
  · rw [if_pos ha] at h0
    exact absurd h0 (by norm_num)
  · rw [if_neg ha] at h0
    constructor
    · cases allocOk with
      | false => exact absurd rfl ha
      | true => rfl
    · by_cases hs : (multiPost C T steps used pad f0).2 ≠ 0
      · rw [if_pos hs] at h0
        exact absurd h0 (by norm_num)
      · have := not_not.mp hs
        rw [multiPost_eq] at this
        exact this

/-- A prefix of a zero overflow total is zero. -/
theorem sUpTo_prefix_zero (used : ℕ → Bool) (steps : ℕ) (f0 : ℕ → FVal) (m n : ℕ)
    (hmn : m ≤ n) (hz : sUpTo used steps f0 n = 0) : sUpTo used steps f0 m = 0 := by
  rw [sUpTo] at hz ⊢
  have hsub : Finset.range m ⊆ Finset.range n := Finset.range_subset.mpr hmn
  have hall := Finset.sum_eq_zero_iff.mp hz
  exact Finset.sum_eq_zero fun i hi => hall i (hsub hi)

/-- Claim C3: on a call that returns status `0`, every sample of every kept
trace of the post-processed tensor is a finite value of magnitude at most
`1`, and no sample of the tensor is NaN. -/
theorem claim_C3 (allocOk : Bool) (C T steps : ℕ) (used : ℕ → Bool) (pad : ℕ → ℕ)
    (f0 : ℕ → FVal)
    (h0 : (multi_normxcorr_fftw allocOk C T steps used pad f0).1 = 0) :
    (∀ c k j, c < C → k < T → j < steps → used (c * T + k) = true →
        ∃ q : ℚ, (multiPost C T steps used pad f0).1 (c * (T * steps) + k * steps + j) =
          .fin q ∧ |q| ≤ 1) ∧
    (∀ τ j, τ < C * T → j < steps →
        (multiPost C T steps used pad f0).1 (τ * steps + j) ≠ FVal.nan) := by
  obtain ⟨-, hz⟩ := multi_status_zero allocOk C T steps used pad f0 h0
  constructor
  · intro c k j hc hk hj hu
    have hτ : c * T + k < C * T := by
      calc c * T + k < c * T + T := by omega
        _ = (c + 1) * T := by ring
        _ ≤ C * T := Nat.mul_le_mul_right _ (by omega)
    have hidx : c * (T * steps) + k * steps + j = (c * T + k) * steps + j := by ring
    rw [hidx, multiPost_buf_apply C T steps used pad f0 _ j hτ hj]
    exact traceFinalBuf_bounded used pad steps f0 _ j hj
      (sUpTo_prefix_zero used steps f0 _ _ (by omega) hz)
  · intro τ j hτ hj
    rw [multiPost_buf_apply C T steps used pad f0 τ j hτ hj]
    exact traceFinalBuf_ne_nan used pad steps f0 τ j hj

/-- Witness for claim C3: one channel, one template, one sample `1/2`;
status is `0`, the sample is kept, bounded, and not NaN. -/
theorem claim_C3_witness :
    (multi_normxcorr_fftw true 1 1 1 (fun _ => true) (fun _ => 0)
        (fun _ => FVal.fin (1 / 2))).1 = 0 ∧
    (∃ q : ℚ, (multiPost 1 1 1 (fun _ => true) (fun _ => 0)
        (fun _ => FVal.fin (1 / 2))).1 (0 * (1 * 1) + 0 * 1 + 0) = .fin q ∧ |q| ≤ 1) ∧
    (multiPost 1 1 1 (fun _ => true) (fun _ => 0)
        (fun _ => FVal.fin (1 / 2))).1 (0 * 1 + 0) ≠ FVal.nan := by
  have h0 : (multi_normxcorr_fftw true 1 1 1 (fun _ => true) (fun _ => 0)
      (fun _ => FVal.fin (1 / 2))).1 = 0 := by
    rw [multi_normxcorr_fftw]
    have hs : (multiPost 1 1 1 (fun _ => true) (fun _ => 0)
        (fun _ => FVal.fin (1 / 2))).2 = 0 := by
      rw [multiPost_eq]
      show sUpTo (fun _ => true) 1 (fun _ => FVal.fin (1 / 2)) (1 * 1) = 0
      norm_num [sUpTo, traceCnt, sanitizeCnt, FVal.isnanf, FVal.absGtTol,
        Finset.sum_range_succ]
      rw [abs_of_nonneg (by norm_num : (0 : ℚ) ≤ 1 / 2)]
      norm_num
    rw [if_neg (by decide : ¬(true = false)), if_neg (not_ne_iff.mpr hs)]
  exact ⟨h0,
    (claim_C3 true 1 1 1 (fun _ => true) (fun _ => 0) (fun _ => FVal.fin (1 / 2)) h0).1
      0 0 0 (by decide) (by decide) (by decide) rfl,
    (claim_C3 true 1 1 1 (fun _ => true) (fun _ => 0) (fun _ => FVal.fin (1 / 2)) h0).2
      0 0 (by decide) (by decide)⟩

/-- Claim C4: a masked `(channel, template)` pair has an identically zero
pre-reduction trace after post-processing. -/
theorem claim_C4 (C T steps : ℕ) (used : ℕ → Bool) (pad : ℕ → ℕ) (f0 : ℕ → FVal)
    (c k j : ℕ) (hc : c < C) (hk : k < T) (hj : j < steps)
    (hu : used (c * T + k) = false) :
    (multiPost C T steps used pad f0).1 (c * (T * steps) + k * steps + j) = .fin 0 := by
  have hτ : c * T + k < C * T := by
    calc c * T + k < c * T + T := by omega
      _ = (c + 1) * T := by ring
      _ ≤ C * T := Nat.mul_le_mul_right _ (by omega)
  have hidx : c * (T * steps) + k * steps + j = (c * T + k) * steps + j := by ring
  rw [hidx, multiPost_buf_apply C T steps used pad f0 _ j hτ hj]
  exact traceFinalBuf_masked used pad steps f0 _ j hj hu

/-- Witness for claim C4: a masked single-trace call with non-zero input is
zeroed. -/
theorem claim_C4_witness :
    (multiPost 1 1 1 (fun _ => false) (fun _ => 0) (fun _ => FVal.fin 5)).1
      (0 * (1 * 1) + 0 * 1 + 0) = .fin 0 :=
  claim_C4 1 1 1 (fun _ => false) (fun _ => 0) (fun _ => FVal.fin 5) 0 0 0
    (by decide) (by decide) (by decide) rfl

/-- Folding IEEE additions of finite values over a list is exact rational
summation. -/
theorem addFold_fin (g : ℕ → FVal) (q : ℕ → ℚ) :
    ∀ (l : List ℕ) (a : ℚ), (∀ c ∈ l, g c = .fin (q c)) →
      l.foldl (fun acc c => FVal.add acc (g c)) (FVal.fin a) =
        FVal.fin (a + (l.map q).sum) := by
  intro l
  induction l with
  | nil => intro a _; simp
  | cons c l' ih =>
      intro a h
      rw [List.foldl_cons, h c (List.mem_cons_self c l')]
      rw [show (FVal.fin a).add (.fin (q c)) = .fin (a + q c) from rfl]
      rw [ih (a + q c) fun b hb => h b (List.mem_cons_of_mem c hb)]
      rw [List.map_cons, List.sum_cons]
      rw [add_assoc]

/-- The head plus the sum over `range' 1 n` is the sum over `range (n + 1)`. -/
theorem headPlusRange (q : ℕ → ℚ) :
    ∀ n : ℕ, q 0 + ((List.range' 1 n).map q).sum = ∑ c in Finset.range (n + 1), q c := by
  intro n
  induction n with
  | zero => simp
  | succ n ih =>
      rw [List.range'_concat, List.map_append, List.sum_append, Finset.sum_range_succ,
        ← ih]
      simp only [List.map_cons, List.map_nil, List.sum_cons, List.sum_nil, one_mul]
      ring

/-- Claim C5: on success the first channel plane after the in-place reduction
holds, at each cell, the exact sum over all channels of the post-processed
pre-reduction values (which are all finite on a successful call). -/
theorem claim_C5 (allocOk : Bool) (C T steps : ℕ) (used : ℕ → Bool) (pad : ℕ → ℕ)
    (f0 : ℕ → FVal) (k j : ℕ)
    (h0 : (multi_normxcorr_fftw allocOk C T steps used pad f0).1 = 0)
    (hC : 1 ≤ C) (hk : k < T) (hj : j < steps) :
    (∀ c, c < C → ∃ qc : ℚ,
        (multiPost C T steps used pad f0).1 (c * (T * steps) + k * steps + j) = .fin qc) ∧
    (∀ q : ℕ → ℚ,
        (∀ c, c < C →
          (multiPost C T steps used pad f0).1 (c * (T * steps) + k * steps + j) =
            .fin (q c)) →
        (multi_normxcorr_fftw allocOk C T steps used pad f0).2 (k * steps + j) =
          .fin (∑ c in Finset.range C, q c)) := by
  obtain ⟨ha, hz⟩ := multi_status_zero allocOk C T steps used pad f0 h0
  subst ha
  have hfin : ∀ c, c < C → ∃ qc : ℚ,
      (multiPost C T steps used pad f0).1 (c * (T * steps) + k * steps + j) = .fin qc := by
    intro c hc
    have hτ : c * T + k < C * T := by
      calc c * T + k < c * T + T := by omega
        _ = (c + 1) * T := by ring
        _ ≤ C * T := Nat.mul_le_mul_right _ (by omega)
    have hidx : c * (T * steps) + k * steps + j = (c * T + k) * steps + j := by ring
    rw [hidx, multiPost_buf_apply C T steps used pad f0 _ j hτ hj]
    by_cases hu : used (c * T + k) = true
    · obtain ⟨qc, hqc, -⟩ := traceFinalBuf_bounded used pad steps f0 (c * T + k) j hj
        (sUpTo_prefix_zero used steps f0 (c * T + k + 1) (C * T) (by omega) hz)
      exact ⟨qc, hqc⟩
    · exact ⟨0, traceFinalBuf_masked used pad steps f0 _ j hj
        (Bool.not_eq_true _ ▸ hu)⟩
  refine ⟨hfin, ?_⟩
  intro q hq
  have hs' : (multiPost C T steps used pad f0).2 = 0 := by
    rw [multiPost_eq]
    exact hz
  have h2 : (multi_normxcorr_fftw true C T steps used pad f0).2 =
      reduceBuf C T steps (multiPost C T steps used pad f0).1 := by
    rw [multi_normxcorr_fftw, if_neg (by decide : ¬(true = false)),
      if_neg (not_ne_iff.mpr hs')]
  rw [h2, reduceBuf]
  have hlt : k * steps + j < T * steps := by
    have h1 : k * steps + j < (k + 1) * steps := by rw [Nat.succ_mul]; omega
    have h2 : (k + 1) * steps ≤ T * steps := Nat.mul_le_mul_right _ (by omega)
    omega
  rw [if_pos hlt]
  have hbase : (multiPost C T steps used pad f0).1 (k * steps + j) = .fin (q 0) := by
    have := hq 0 (by omega)
    rw [show (0 : ℕ) * (T * steps) + k * steps + j = k * steps + j from by ring] at this
    exact this
  rw [hbase]
  rw [addFold_fin (fun c => (multiPost C T steps used pad f0).1 (k * steps + j + c * (T * steps)))
    q (List.range' 1 (C - 1)) (q 0) ?_]
  · rw [headPlusRange q (C - 1), show C - 1 + 1 = C from by omega]
  · intro c hc
    obtain ⟨h1c, h2c⟩ := List.mem_range'_1.mp hc
    have := hq c (by omega)
    rw [show c * (T * steps) + k * steps + j = k * steps + j + c * (T * steps) from by ring]
      at this
    exact this

/-- Witness for claim C5: two channels, one template, one sample `1/2` per
channel; the reduced plane holds `1/2 + 1/2 = 1`. -/
theorem claim_C5_witness :
    (multi_normxcorr_fftw true 2 1 1 (fun _ => true) (fun _ => 0)
        (fun _ => FVal.fin (1 / 2))).1 = 0 ∧
    (multi_normxcorr_fftw true 2 1 1 (fun _ => true) (fun _ => 0)
        (fun _ => FVal.fin (1 / 2))).2 (0 * 1 + 0) =
      .fin (∑ c in Finset.range 2, (1 / 2 : ℚ)) := by
  have h0 : (multi_normxcorr_fftw true 2 1 1 (fun _ => true) (fun _ => 0)
      (fun _ => FVal.fin (1 / 2))).1 = 0 := by
    rw [multi_normxcorr_fftw]
    have hs : (multiPost 2 1 1 (fun _ => true) (fun _ => 0)
        (fun _ => FVal.fin (1 / 2))).2 = 0 := by
      rw [multiPost_eq]
      show sUpTo (fun _ => true) 1 (fun _ => FVal.fin (1 / 2)) (2 * 1) = 0
      norm_num [sUpTo, traceCnt, sanitizeCnt, FVal.isnanf, FVal.absGtTol,
        Finset.sum_range_succ]
      rw [abs_of_nonneg (by norm_num : (0 : ℚ) ≤ 1 / 2)]
      norm_num
    rw [if_neg (by decide : ¬(true = false)), if_neg (not_ne_iff.mpr hs)]
  have hbuf : ∀ c, c < 2 →
      (multiPost 2 1 1 (fun _ => true) (fun _ => 0) (fun _ => FVal.fin (1 / 2))).1
        (c * (1 * 1) + 0 * 1 + 0) = .fin (1 / 2) := by
    intro c hc
    have hτ : c * 1 + 0 < 2 * 1 := by omega
    have hidx : c * (1 * 1) + 0 * 1 + 0 = (c * 1 + 0) * 1 + 0 := by ring
    rw [hidx, multiPost_buf_apply 2 1 1 _ _ _ _ 0 hτ (by decide), traceFinalBuf]
    rw [if_pos (by
      apply sUpTo_prefix_zero (fun _ => true) 1 (fun _ => FVal.fin (1 / 2)) _ (2 * 1)
        (by omega)
      norm_num [sUpTo, traceCnt, sanitizeCnt, FVal.isnanf, FVal.absGtTol,
        Finset.sum_range_succ]
      rw [abs_of_nonneg (by norm_num : (0 : ℚ) ≤ 1 / 2)]
      norm_num)]
    rw [padShiftAt, if_pos ⟨by omega, by omega⟩, if_pos (by omega)]
    rw [sanTraceF, if_pos ⟨by omega, by omega⟩, if_pos rfl]
    rw [sanitizeVal]
    rw [if_neg (by simp [FVal.isnanf])]
    rw [if_neg (by
      simp only [FVal.absGtTol, decide_eq_true_eq]
      rw [abs_of_nonneg (by norm_num : (0 : ℚ) ≤ 1 / 2)]
      norm_num)]
    rw [if_neg (by simp only [FVal.gtOne, decide_eq_true_eq]; norm_num)]
    rw [if_neg (by simp only [FVal.ltNegOne, decide_eq_true_eq]; norm_num)]
  exact ⟨h0,
    (claim_C5 true 2 1 1 (fun _ => true) (fun _ => 0) (fun _ => FVal.fin (1 / 2))
      0 0 h0 (by decide) (by decide) (by decide)).2 (fun _ => 1 / 2) hbuf⟩

/-- Claim C6: the pad shift with `p ≤ steps` moves sample `j + p` to
position `j` for `j < steps - p`, zeroes the last `p` positions, and with
`p = 0` leaves the trace unchanged. -/
theorem claim_C6 (f : ℕ → FVal) (p steps base j : ℕ) (hp : p ≤ steps) :
    (j < steps - p → padShiftAt p steps base f (base + j) = f (base + j + p)) ∧
    (steps - p ≤ j → j < steps → padShiftAt p steps base f (base + j) = .fin 0) ∧
    (p = 0 → j < steps → padShiftAt p steps base f (base + j) = f (base + j)) := by
  refine ⟨?_, ?_, ?_⟩
  · intro hcopy
    rw [padShiftAt, if_pos ⟨by omega, by omega⟩, if_pos (by omega)]
  · intro h1 h2
    rw [padShiftAt, if_pos ⟨by omega, by omega⟩, if_neg (by omega)]
  · intro hp0 h2
    subst hp0
    rw [padShiftAt, if_pos ⟨by omega, by omega⟩, if_pos (by omega), Nat.add_zero]

/-- Witness for claim C6: shifting the concrete trace `[fin 0, fin 1]` by
`p = 1`. -/
theorem claim_C6_witness :
    (0 < 2 - 1 → padShiftAt 1 2 0 (fun i => FVal.fin i) (0 + 0) =
      FVal.fin ((0 + 0 + 1 : ℕ) : ℚ)) ∧
    (2 - 1 ≤ 0 → 0 < 2 → padShiftAt 1 2 0 (fun i => FVal.fin i) (0 + 0) = .fin 0) ∧
    ((1 : ℕ) = 0 → 0 < 2 → padShiftAt 1 2 0 (fun i => FVal.fin i) (0 + 0) =
      FVal.fin ((0 + 0 : ℕ) : ℚ)) :=
  claim_C6 (fun i => FVal.fin i) 1 2 0 0 (by decide)

/-- A sample trips the overflow counter exactly when it is not NaN and its
magnitude exceeds `1.01`. -/
theorem sanitizeCnt_ne_zero (v : FVal) :
    sanitizeCnt v ≠ 0 ↔ v.isnanf = false ∧ v.absGtTol = true := by
  rw [sanitizeCnt]
  cases h1 : v.isnanf <;> cases h2 : v.absGtTol <;> simp [h1, h2]

/-- A trace contributes to the overflow counter exactly when it is kept and
one of its samples trips the counter. -/
theorem traceCnt_ne_zero (u : Bool) (steps base : ℕ) (f : ℕ → FVal) :
    traceCnt u steps base f ≠ 0 ↔
      u = true ∧ ∃ j, j < steps ∧ sanitizeCnt (f (base + j)) ≠ 0 := by
  rw [traceCnt]
  cases u with
  | false => simp
  | true =>
      simp only [if_true, true_and]
      constructor
      · intro h
        by_contra hno
        push_neg at hno
        exact h (Finset.sum_eq_zero fun j hj => hno j (Finset.mem_range.mp hj))
      · rintro ⟨j, hj, hne⟩ hsum
        exact hne (Finset.sum_eq_zero_iff.mp hsum j (Finset.mem_range.mpr hj))

/-- The total overflow count is non-zero exactly when some trace trips it. -/
theorem sUpTo_ne_zero_iff (used : ℕ → Bool) (steps : ℕ) (f0 : ℕ → FVal) (n : ℕ) :
    sUpTo used steps f0 n ≠ 0 ↔
      ∃ τ, τ < n ∧ traceCnt (used τ) steps (τ * steps) f0 ≠ 0 := by
  rw [sUpTo]
  constructor
  · intro h
    by_contra hno
    push_neg at hno
    exact h (Finset.sum_eq_zero fun τ hτ => hno τ (Finset.mem_range.mp hτ))
  · rintro ⟨τ, hτ, hne⟩ hsum
    exact hne (Finset.sum_eq_zero_iff.mp hsum τ (Finset.mem_range.mpr hτ))

/-- Claim C7: the orchestrator returns `0` on success; a positive status
exactly when allocation fails (the inner kernel, which always returns `0`,
cannot contribute a failure); and `-1` exactly when some kept sample of the
kernel-phase buffer is a non-NaN value of magnitude above `1.01`. -/
theorem claim_C7 :
    (∀ (t : List ℚ) (L T : ℕ) (x : List ℚ) (Li N : ℕ) (f : ℕ → ℝ),
        (normxcorr_fftw_main t L T x Li f N).1 = 0) ∧
    ∀ (allocOk : Bool) (C T steps : ℕ) (used : ℕ → Bool) (pad : ℕ → ℕ)
      (f0 : ℕ → FVal),
      ((multi_normxcorr_fftw allocOk C T steps used pad f0).1 > 0 ↔ allocOk = false) ∧
      ((multi_normxcorr_fftw allocOk C T steps used pad f0).1 = -1 ↔
        (allocOk = true ∧ ∃ τ, τ < C * T ∧ used τ = true ∧ ∃ j, j < steps ∧
          (f0 (τ * steps + j)).isnanf = false ∧ (f0 (τ * steps + j)).absGtTol = true)) ∧
      ((multi_normxcorr_fftw allocOk C T steps used pad f0).1 = 0 ↔
        (allocOk = true ∧ ¬ ∃ τ, τ < C * T ∧ used τ = true ∧ ∃ j, j < steps ∧
          (f0 (τ * steps + j)).isnanf = false ∧
            (f0 (τ * steps + j)).absGtTol = true)) := by
  refine ⟨fun t L T x Li N f => rfl, ?_⟩
  intro allocOk C T steps used pad f0
  have hP : (multiPost C T steps used pad f0).2 ≠ 0 ↔
      ∃ τ, τ < C * T ∧ used τ = true ∧ ∃ j, j < steps ∧
        (f0 (τ * steps + j)).isnanf = false ∧ (f0 (τ * steps + j)).absGtTol = true := by
    rw [multiPost_eq]
    show sUpTo used steps f0 (C * T) ≠ 0 ↔ _
    rw [sUpTo_ne_zero_iff]
    simp only [traceCnt_ne_zero, sanitizeCnt_ne_zero]
  cases allocOk with
  | false =>
      rw [multi_normxcorr_fftw, if_pos rfl]
      refine ⟨by norm_num, by norm_num, by norm_num⟩
  | true =>
      rw [multi_normxcorr_fftw, if_neg (by decide)]
      by_cases hsp : (multiPost C T steps used pad f0).2 ≠ 0
      · rw [if_pos hsp]
        have hPP := hP.mp hsp
        exact ⟨by norm_num, by simp [hPP], by simp [hPP]⟩
      · rw [if_neg hsp]
        have hnP : ¬ ∃ τ, τ < C * T ∧ used τ = true ∧ ∃ j, j < steps ∧
            (f0 (τ * steps + j)).isnanf = false ∧
              (f0 (τ * steps + j)).absGtTol = true :=
          fun hp => hsp (hP.mpr hp)
        exact ⟨by norm_num, by simp [hnP], by simp [hnP]⟩

/-- Claim C8 (amended): the pad shift for a trace is applied exactly when the
overflow counter is still zero just after that trace's own sanitisation, in
processing order.  On an overflowing call (status `-1`) traces sanitised at
or after the first overflow are left in pre-pad sanitised state, but traces
processed earlier have already been shifted, so the tensor as a whole is not
guaranteed to be pre-pad. -/
theorem claim_C8 (C T steps : ℕ) (used : ℕ → Bool) (pad : ℕ → ℕ) (f0 : ℕ → FVal)
    (τ j : ℕ) (hτ : τ < C * T) (hj : j < steps) :
    (sUpTo used steps f0 (τ + 1) = 0 →
      (multiPost C T steps used pad f0).1 (τ * steps + j) =
        padShiftAt (pad τ) steps (τ * steps)
          (sanTraceF (used τ) steps (τ * steps) f0) (τ * steps + j)) ∧
    (sUpTo used steps f0 (τ + 1) ≠ 0 →
      (multiPost C T steps used pad f0).1 (τ * steps + j) =
        sanTraceF (used τ) steps (τ * steps) f0 (τ * steps + j)) := by
  rw [multiPost_buf_apply C T steps used pad f0 τ j hτ hj, traceFinalBuf]
  constructor
  · intro hz
    rw [if_pos hz]
  · intro hz
    rw [if_neg hz]

/-- The kernel-phase buffer used by the claim C8 witness and counterexample:
one channel, two templates of two samples; trace `0` holds `[1/2, 3/4]` and
trace `1` holds `[2, 0]` (the sample `2` is a gross overflow). -/
def cexBuf : ℕ → FVal :=
  fun idx =>
    if idx = 0 then .fin (1 / 2)
    else if idx = 1 then .fin (3 / 4)
    else if idx = 2 then .fin 2
    else .fin 0

/-- A finite sample within the tolerance band does not trip the counter. -/
theorem sanitizeCnt_fin_zero (q : ℚ) (h1 : -(101 / 100) ≤ q) (h2 : q ≤ 101 / 100) :
    sanitizeCnt (FVal.fin q) = 0 := by
  rw [sanitizeCnt, if_neg (by simp [FVal.isnanf]),
    if_neg (by
      simp only [FVal.absGtTol, decide_eq_true_eq, not_lt]
      exact abs_le.mpr ⟨by linarith, h2⟩)]

/-- A finite sample beyond the tolerance band trips the counter. -/
theorem sanitizeCnt_fin_one (q : ℚ) (h : 101 / 100 < q ∨ q < -(101 / 100)) :
    sanitizeCnt (FVal.fin q) = 1 := by
  rw [sanitizeCnt, if_neg (by simp [FVal.isnanf]),
    if_pos (by
      simp only [FVal.absGtTol, decide_eq_true_eq]
      rcases h with h | h
      · exact lt_of_lt_of_le h (le_abs_self q)
      · exact lt_of_lt_of_le (by linarith) (neg_le_abs q))]

/-- Overflow count of `cexBuf` after trace `0` alone: zero. -/
theorem cexBuf_s1 : sUpTo (fun _ => true) 2 cexBuf 1 = 0 := by
  rw [sUpTo, Finset.sum_range_one, traceCnt, if_pos rfl]
  rw [Finset.sum_range_succ, Finset.sum_range_one]
  rw [show cexBuf (0 * 2 + 0) = .fin (1 / 2) from rfl,
    show cexBuf (0 * 2 + 1) = .fin (3 / 4) from rfl,
    sanitizeCnt_fin_zero (1 / 2) (by norm_num) (by norm_num),
    sanitizeCnt_fin_zero (3 / 4) (by norm_num) (by norm_num)]

/-- Overflow count of `cexBuf` after both traces: one. -/
theorem cexBuf_s2 : sUpTo (fun _ => true) 2 cexBuf 2 = 1 := by
  rw [sUpTo, Finset.sum_range_succ]
  rw [show (∑ i in Finset.range 1, traceCnt ((fun _ => true) i) 2 (i * 2) cexBuf) =
      sUpTo (fun _ => true) 2 cexBuf 1 from rfl, cexBuf_s1]
  rw [traceCnt, if_pos rfl, Finset.sum_range_succ, Finset.sum_range_one]
  rw [show cexBuf (1 * 2 + 0) = .fin 2 from rfl,
    show cexBuf (1 * 2 + 1) = .fin 0 from rfl,
    sanitizeCnt_fin_one 2 (Or.inl (by norm_num)),
    sanitizeCnt_fin_zero 0 (by norm_num) (by norm_num)]
  norm_num

/-- Witness for claim C8 (amended): in the `cexBuf` call the overflow is
observed during trace `1`'s sanitisation, so trace `1` is left unshifted. -/
theorem claim_C8_witness :
    sUpTo (fun _ => true) 2 cexBuf 2 ≠ 0 ∧
    (multiPost 1 2 2 (fun _ => true) (fun _ => 1) cexBuf).1 (1 * 2 + 0) =
      sanTraceF true 2 (1 * 2) cexBuf (1 * 2 + 0) := by
  have hne : sUpTo (fun _ => true) 2 cexBuf 2 ≠ 0 := by
    rw [cexBuf_s2]; norm_num
  exact ⟨hne,
    (claim_C8 1 2 2 (fun _ => true) (fun _ => 1) cexBuf 1 0 (by decide) (by decide)).2
      hne⟩

/-- Counterexample to claim C8 as stated: the `cexBuf` call returns status
`-1`, yet trace `0` (processed before the overflow was observed) has already
been pad-shifted — its sample `1` is `0` instead of the pre-pad value `3/4`,
so the output is not left in its pre-pad state. -/
theorem claim_C8_cex :
    (multi_normxcorr_fftw true 1 2 2 (fun _ => true) (fun _ => 1) cexBuf).1 = -1 ∧
    (multi_normxcorr_fftw true 1 2 2 (fun _ => true) (fun _ => 1) cexBuf).2 1 =
      .fin 0 ∧
    sanitizeVal (cexBuf 1) = .fin (3 / 4) := by
  have hs : (multiPost 1 2 2 (fun _ => true) (fun _ => 1) cexBuf).2 = 1 := by
    rw [multiPost_eq]
    show sUpTo (fun _ => true) 2 cexBuf (1 * 2) = 1
    rw [show (1 * 2 : ℕ) = 2 from rfl, cexBuf_s2]
  have hmulti : multi_normxcorr_fftw true 1 2 2 (fun _ => true) (fun _ => 1) cexBuf =
      (-1, (multiPost 1 2 2 (fun _ => true) (fun _ => 1) cexBuf).1) := by
    rw [multi_normxcorr_fftw, if_neg (by decide), if_pos (by rw [hs]; norm_num)]
  refine ⟨by rw [hmulti], ?_, ?_⟩
  · rw [hmulti]
    show (multiPost 1 2 2 (fun _ => true) (fun _ => 1) cexBuf).1 (0 * 2 + 1) = .fin 0
    rw [multiPost_buf_apply 1 2 2 (fun _ => true) (fun _ => 1) cexBuf 0 1
      (by decide) (by decide)]
    rw [traceFinalBuf, if_pos (by rw [show (0 + 1 : ℕ) = 1 from rfl, cexBuf_s1])]
    rw [padShiftAt, if_pos ⟨by omega, by omega⟩, if_neg (by omega)]
  · rw [show cexBuf 1 = .fin (3 / 4) from rfl, sanitizeVal,
      if_neg (by simp [FVal.isnanf]),
      if_neg (by
        simp only [FVal.absGtTol, decide_eq_true_eq, not_lt]
        exact abs_le.mpr ⟨by norm_num, by norm_num⟩),
      if_neg (by simp only [FVal.gtOne, decide_eq_true_eq]; norm_num),
      if_neg (by simp only [FVal.ltNegOne, decide_eq_true_eq]; norm_num)]
